import Mathlib

set_option linter.unusedVariables false

/-!
# Verification of avrokit's OCF block-level algorithms

Shallow embedding of the core algorithms of the `avrokit` toolkit
(`src/avrokit`): block-level concatenation, fast record counting,
corruption-tolerant repair, the partitioned writer, the external-merge sorter,
the schema-evolution validator and the asynchronous writer stage.  The Avro
value codec itself is an external collaborator and is modelled as a black-box
`decode` function from schema metadata bytes and payload bytes to records.
-/

namespace Avrokit

/-- An Avro record with integer-valued top-level fields, modelling the Python
dicts the toolkit hands to the Avro codec. -/
abbrev Rec := List (String × Int)

/-! ### OCF data model

An OCF file is a header (metadata containing `avro.schema` and `avro.codec`
plus a 16-byte sync marker) followed by data blocks. -/

/-- One OCF data block `(count, size, payload, sync)`; `size` is
`payload.length` and is kept implicit. -/
structure Block where
  count : Nat
  payload : List Nat
  sync : List Nat
  deriving DecidableEq, Repr

/-- In-memory view of an OCF file: the `avro.schema` metadata bytes (verbatim),
the `avro.codec` metadata bytes, the header sync marker and the data blocks. -/
structure OCFFile where
  schemaBytes : List Nat
  codec : List Nat
  sync : List Nat
  blocks : List Block
  deriving DecidableEq, Repr

/-- Decoded record sequence of a file: each block's payload decoded by the Avro
codec, which is a black box `decode : schema bytes → payload bytes → records`. -/
def decodeFile (decode : List Nat → List Nat → List Rec) (f : OCFFile) : List Rec :=
  f.blocks.flatMap (fun b => decode f.schemaBytes b.payload)

/-! ### Concat tool (`src/avrokit/tools/concat.py`) -/

/-- `ConcatTool.get_schema_and_codec`: the `avro.schema` and `avro.codec`
metadata bytes of one input (the reader defaults `avro.codec` to `null` bytes,
which the model stores directly in the file view). -/
def get_schema_and_codec (f : OCFFile) : List Nat × List Nat :=
  (f.schemaBytes, f.codec)

/-- UTF-8 bytes of a string, modelling Python's `str.encode("utf-8")`. -/
def encodeUtf8 (s : String) : List Nat := s.toUTF8.toList.map (fun b => b.toNat)

/-- `ConcatTool.check_schema_and_codec`: `True` for an empty input list;
otherwise the first file's codec must equal the desired codec's UTF-8 bytes and
every later file's schema bytes and codec must equal the first file's. -/
def check_schema_and_codec (files : List OCFFile) (desired_codec : String) : Bool :=
  match files with
  | [] => true
  | base :: rest =>
    let bsc := get_schema_and_codec base
    if bsc.2 ≠ encodeUtf8 desired_codec then false
    else rest.all (fun f =>
      let sc := get_schema_and_codec f
      decide (sc.1 = bsc.1) && decide (sc.2 = bsc.2))

/-- `ConcatTool.block_concat`: copy the first input's raw header (schema bytes,
codec, sync marker) to the output, then for every input in order copy each
block's count, size and payload verbatim and emit the output's sync marker
(the first input's) in place of the input's.  The source writes an empty,
headerless output for an empty input list, which the file view cannot
represent, hence `none` there. -/
def block_concat : List OCFFile → Option OCFFile
  | [] => none
  | first :: rest =>
    some { schemaBytes := first.schemaBytes
           codec := first.codec
           sync := first.sync
           blocks := (first :: rest).flatMap
             (fun f => f.blocks.map (fun b => { b with sync := first.sync })) }

/-- `ConcatTool.concat` (record-level concatenation): decode every input in
order and append each record to the output writer; by the Avro round-trip
contract the output file's decoded record sequence is exactly the sequence of
appended records, which is what this definition returns. -/
def concat_records (decode : List Nat → List Nat → List Rec)
    (inputs : List OCFFile) : List Rec :=
  inputs.flatMap (decodeFile decode)

/-! ### Count tool (`src/avrokit/tools/count.py`) -/

/-- `CountTool.fast_count_records`: walk the blocks adding each block's count
to the running total, seek over the payload, and compare the trailing sync
bytes with the header sync.  On the first mismatch stop, emit the
"file may still be open for writing" warning (the `true` flag) and return the
total accumulated so far — the mismatched block's count was already added
before the sync check, exactly as in the source.  Clean end of file returns
the total with no warning. -/
def fast_count_records (sync : List Nat) : List Block → Nat × Bool
  | [] => (0, false)
  | b :: rest =>
    if b.sync = sync then
      let t := fast_count_records sync rest
      (b.count + t.1, t.2)
    else (b.count, true)

/-- Fast count of one file: scan its blocks against its header sync. -/
def fast_count (f : OCFFile) : Nat × Bool := fast_count_records f.sync f.blocks

/-- A non-truncated OCF file: every block's trailing sync equals the header
sync and every block's declared count equals the number of records the codec
decodes from its payload. -/
def WellFormed (decode : List Nat → List Nat → List Rec) (f : OCFFile) : Prop :=
  (∀ b ∈ f.blocks, b.sync = f.sync) ∧
  (∀ b ∈ f.blocks, b.count = (decode f.schemaBytes b.payload).length)

instance (decode : List Nat → List Nat → List Rec) (f : OCFFile) :
    Decidable (WellFormed decode f) := by
  unfold WellFormed; infer_instance

/-! ### Repair tool (`src/avrokit/tools/repair.py`) -/

/-- The `for _ in range(block_count)` loop of `RepairTool.repair`: decode each
of the block's declared records in order (`some r` models a successful
`datum_reader.read`, `none` a decode exception), appending successes to the
output writer; the first failure abandons the remainder of the block
(`break`) and marks it corrupt.  Returns the appended records and whether the
block was corrupt. -/
def decode_block_records : List (Option Rec) → List Rec × Bool
  | [] => ([], false)
  | some r :: rest =>
    let t := decode_block_records rest
    (r :: t.1, t.2)
  | none :: _ => ([], true)

/-- A block as the repair scanner sees it: its trailing sync bytes and the
sequence of per-record decode outcomes for its declared records. -/
structure RepairBlock where
  sync : List Nat
  attempts : List (Option Rec)
  deriving DecidableEq

/-- Main loop of `RepairTool.repair` over one input's blocks.  For each block:
if the trailing sync matches the expected marker, decode its records (the first
failure marks the block corrupt and abandons its remainder); otherwise count
the block corrupt and rescan to the next sync marker (the byte-level
`scan_to_next_sync_marker` is modelled as resuming at the next block).
Returns (records appended to the output writer, blocks read, corrupt blocks). -/
def repair_blocks (sync_marker : List Nat) : List RepairBlock → List Rec × Nat × Nat
  | [] => ([], 0, 0)
  | b :: rest =>
    let t := repair_blocks sync_marker rest
    if b.sync = sync_marker then
      let d := decode_block_records b.attempts
      (d.1 ++ t.1, t.2.1 + 1, (if d.2 then 1 else 0) + t.2.2)
    else
      (t.1, t.2.1 + 1, 1 + t.2.2)

/-! ### Schema model and evolution validator (`src/avrokit/io/schema.py`) -/

mutual
/-- The Avro schema tree as the validator sees it.  `prim` covers the
`PrimitiveSchema` variants (`null`, `boolean`, `int`, `long`, `float`,
`double`, `bytes`, `string`); in the avro library the `null` schema is a
`PrimitiveSchema`, never a `RecordSchema`. -/
inductive AvroSchema where
  | prim (name : String)
  | record (name : String) (fields : List AvroField)
  | enum (name : String) (symbols : List String)
  | union (branches : List AvroSchema)
  | array (items : AvroSchema)
  | map (values : AvroSchema)
  | fixed (name : String) (size : Nat)

/-- An Avro record field: its name, its type and whether `"default"` appears in
its props. -/
inductive AvroField where
  | mk (name : String) (ftype : AvroSchema) (hasDefault : Bool)
end

mutual
/-- Structural schema equality, modelling the avro library's `Schema.__eq__`
(property comparison). -/
def AvroSchema.beq : AvroSchema → AvroSchema → Bool
  | .prim a, .prim b => a == b
  | .record n1 f1, .record n2 f2 => n1 == n2 && AvroField.beqList f1 f2
  | .enum n1 s1, .enum n2 s2 => n1 == n2 && s1 == s2
  | .union b1, .union b2 => AvroSchema.beqList b1 b2
  | .array a, .array b => AvroSchema.beq a b
  | .map a, .map b => AvroSchema.beq a b
  | .fixed n1 s1, .fixed n2 s2 => n1 == n2 && s1 == s2
  | _, _ => false

def AvroSchema.beqList : List AvroSchema → List AvroSchema → Bool
  | [], [] => true
  | a :: as, b :: bs => AvroSchema.beq a b && AvroSchema.beqList as bs
  | _, _ => false

def AvroField.beq : AvroField → AvroField → Bool
  | .mk n1 t1 d1, .mk n2 t2 d2 => n1 == n2 && AvroSchema.beq t1 t2 && d1 == d2

def AvroField.beqList : List AvroField → List AvroField → Bool
  | [], [] => true
  | a :: as, b :: bs => AvroField.beq a b && AvroField.beqList as bs
  | _, _ => false
end

instance : BEq AvroSchema := ⟨AvroSchema.beq⟩

instance : BEq AvroField := ⟨AvroField.beq⟩

def AvroField.name : AvroField → String
  | .mk n _ _ => n

def AvroField.ftype : AvroField → AvroSchema
  | .mk _ t _ => t

def AvroField.hasDefault : AvroField → Bool
  | .mk _ _ d => d

/-- `".".join(name)`. -/
def dotJoin : List String → String
  | [] => ""
  | [s] => s
  | s :: rest => s ++ "." ++ dotJoin rest

theorem avroSchema_beq_def (a b : AvroSchema) : (a == b) = AvroSchema.beq a b := rfl

theorem except_bind_error {α β : Type} (e : String) (f : α → Except String β) :
    (Except.error e >>= f) = Except.error e := rfl

theorem except_bind_ok {α β : Type} (a : α) (f : α → Except String β) :
    (Except.ok a >>= f) = f a := rfl

mutual
/-- `flatten_avro_schema_fields` on one schema node: only a `RecordSchema`
contributes entries (the source guards on `isinstance(schema, RecordSchema)`). -/
def flattenSchema (path : List String) : AvroSchema → List (String × AvroField)
  | .record _ fields => flattenFieldList path fields
  | _ => []

/-- The `for field in schema.fields` loop, in order. -/
def flattenFieldList (path : List String) : List AvroField → List (String × AvroField)
  | [] => []
  | f :: rest => flattenFieldAt path f ++ flattenFieldList path rest

/-- One field's contribution under `name = path ++ [field.name]`: a record
type recurses; a union type adds the union field itself and then recursively
flattens each record branch `i` under `name ++ [__union__, i]`; any other type
adds the field itself. -/
def flattenFieldAt (path : List String) : AvroField → List (String × AvroField)
  | .mk n t d =>
    match t with
    | .record rn rf => flattenSchema (path ++ [n]) (.record rn rf)
    | .union br =>
      (dotJoin (path ++ [n]), .mk n (.union br) d) ::
        flattenUnionBranches (path ++ [n]) 0 br
    | t' => [(dotJoin (path ++ [n]), .mk n t' d)]

/-- The `for i, union_schema in enumerate(field.type.schemas)` loop: record
branches recurse, other branches contribute nothing. -/
def flattenUnionBranches (path : List String) (i : Nat) :
    List AvroSchema → List (String × AvroField)
  | [] => []
  | s :: rest =>
    (match s with
     | .record rn rf =>
       flattenSchema (path ++ ["__union__", toString i]) (.record rn rf)
     | _ => []) ++ flattenUnionBranches path (i + 1) rest
end

/-- Python-dict insertion: overwrite the value when the key exists, else append
at the end (insertion order preserved). -/
def dictInsert (d : List (String × AvroField)) (kv : String × AvroField) :
    List (String × AvroField) :=
  if d.any (fun e => e.1 = kv.1) then
    d.map (fun e => if e.1 = kv.1 then (e.1, kv.2) else e)
  else d ++ [kv]

/-- `flatten_avro_schema_fields`: the flattened entries collected into a dict
with dot-notation keys. -/
def flatten_avro_schema_fields (s : AvroSchema) : List (String × AvroField) :=
  (flattenSchema [] s).foldl dictInsert []

/-- `isinstance(s, RecordSchema) and s.name == "null"` — the branch test used
by the validator on union members.  A `PrimitiveSchema` for `null` fails it. -/
def AvroSchema.isRecordNamedNull : AvroSchema → Bool
  | .record n _ => n = "null"
  | _ => false

/-- Type-change rules of `validate_avro_schema_evolution` for one path present
in both schemas, applied only when the types differ: enum-to-enum needs a
symbol superset, union-to-union needs a branch superset, a non-union new type
fails, and a union new type must have exactly two branches one of which is a
`RecordSchema` named `"null"` (the interpolated details of the source's error
messages are elided). -/
def checkTypeChange (name : String) (newT oldT : AvroSchema) : Except String Unit :=
  if newT == oldT then .ok ()
  else
    match newT, oldT with
    | .enum _ newSyms, .enum _ oldSyms =>
      if oldSyms.all (fun s => newSyms.contains s) then .ok ()
      else .error ("Field " ++ name ++ " enum has changed.")
    | .union newBr, .union oldBr =>
      if oldBr.all (fun s => newBr.contains s) then .ok ()
      else .error ("Field " ++ name ++ " union has changed.")
    | .union newBr, _ =>
      if newBr.length = 2 ∧ newBr.any (fun s => s.isRecordNamedNull) then .ok ()
      else .error ("Field " ++ name ++ " type has changed.")
    | _, _ => .error ("Field " ++ name ++ " type has changed.")

/-- The first loop of `validate_avro_schema_evolution`, for one path of the new
schema: a path absent from the old schema must carry a default; a path present
in both must not drop its default, and a changed type must pass
`checkTypeChange`. -/
def checkNewField (old_fields : List (String × AvroField)) (name : String)
    (field : AvroField) : Except String Unit :=
  match old_fields.lookup name with
  | none =>
    if ¬ field.hasDefault then
      .error ("Field " ++ name ++ " is missing a default value.")
    else .ok ()
  | some old_field =>
    if ¬ field.hasDefault ∧ old_field.hasDefault then
      .error ("Field " ++ name ++ " default value cannot be removed.")
    else checkTypeChange name field.ftype old_field.ftype

/-- `for name, field in schema_b_fields.items(): ...` -/
def checkNewFields (old_fields : List (String × AvroField)) :
    List (String × AvroField) → Except String Unit
  | [] => .ok ()
  | (name, field) :: rest =>
    checkNewField old_fields name field >>= fun _ => checkNewFields old_fields rest

/-- `for name, field in schema_a_fields.items(): ...` — a path removed in the
new schema must have carried a default. -/
def checkRemovedFields (new_fields : List (String × AvroField)) :
    List (String × AvroField) → Except String Unit
  | [] => .ok ()
  | (name, field) :: rest =>
    if (new_fields.lookup name).isNone ∧ ¬ field.hasDefault then
      .error ("Field " ++ name ++ " is missing a default value.")
    else checkRemovedFields new_fields rest

/-- `validate_avro_schema_evolution schema_a schema_b`: flatten both schemas
and run the two field loops; `.ok ()` models a return without raising and
`.error` a raised `ValueError`. -/
def validate_avro_schema_evolution (schema_a schema_b : AvroSchema) :
    Except String Unit :=
  let schema_a_fields := flatten_avro_schema_fields schema_a
  let schema_b_fields := flatten_avro_schema_fields schema_b
  checkNewFields schema_a_fields schema_b_fields >>= fun _ =>
    checkRemovedFields schema_b_fields schema_a_fields

/-- C2 (code bug): changing a field from `int` to the two-branch union
`[null, int]` — the "make a field optional" evolution the validator's own
docstring lists as allowed — raises a `ValueError` anyway.  The acceptance
branch tests `isinstance(s, RecordSchema) and s.name == "null"`, but the
`null` member of a union is a `PrimitiveSchema`, never a `RecordSchema`, so no
two-branch union with a primitive `null` can ever satisfy it. -/
theorem validate_optional_field_raises :
    validate_avro_schema_evolution
      (.record "User" [.mk "value" (.prim "int") false])
      (.record "User" [.mk "value" (.union [.prim "null", .prim "int"]) true])
      = .error "Field value type has changed." := by
  simp [validate_avro_schema_evolution, flatten_avro_schema_fields, flattenSchema,
    flattenFieldList, flattenFieldAt, flattenUnionBranches, dictInsert, dotJoin,
    checkNewFields, checkNewField, checkRemovedFields, checkTypeChange,
    AvroField.ftype, AvroField.hasDefault, List.lookup, avroSchema_beq_def,
    except_bind_error, except_bind_ok,
    AvroSchema.beq, AvroSchema.beqList, AvroField.beq, AvroField.beqList,
    AvroSchema.isRecordNamedNull]

/-! ### Partitioned writer (`src/avrokit/io/writer.py`) -/

/-- State of a `PartitionedAvroWriter`: the records buffered in the currently
open `DataFileWriter` (`none` when no writer is open — never opened, or after
`close`), and the record contents of the already-closed part files. -/
structure PWriter where
  current : Option (List Rec)
  closed : List (List Rec)
  deriving DecidableEq

/-- A freshly constructed `PartitionedAvroWriter`: no writer open yet. -/
def PWriter.init : PWriter := { current := none, closed := [] }

/-- `PartitionedAvroWriter.append`: raises `ValueError("Writer is not
initialized.")` when no writer is open, otherwise appends the datum to the
current output.  Returns the outcome and the post-call state. -/
def PWriter.append (w : PWriter) (r : Rec) : Except String Unit × PWriter :=
  match w.current with
  | none => (.error "Writer is not initialized.", w)
  | some buf => (.ok (), { w with current := some (buf ++ [r]) })

/-- `PartitionedAvroWriter.flush`: raises when no writer is open, otherwise
flushes the current output (no state change in the record view). -/
def PWriter.flush (w : PWriter) : Except String Unit × PWriter :=
  match w.current with
  | none => (.error "Writer is not initialized.", w)
  | some _ => (.ok (), w)

/-- `PartitionedAvroWriter.roll`: raises when no writer is open, otherwise
closes the current output and opens the next one. -/
def PWriter.roll (w : PWriter) : Except String Unit × PWriter :=
  match w.current with
  | none => (.error "Writer is not initialized.", w)
  | some buf => (.ok (), { current := some [], closed := w.closed ++ [buf] })

/-- `PartitionedAvroWriter.close`: closes the current output if one is open and
returns to the Closed state. -/
def PWriter.close (w : PWriter) : PWriter :=
  match w.current with
  | none => { w with current := none }
  | some buf => { current := none, closed := w.closed ++ [buf] }

/-! ### Asynchronous writer stage (`src/avrokit/asyncio/writer.py`) -/

/-- Python truthiness of an Avro record dict: the empty dict is falsy. -/
def pyTruthy (d : Rec) : Bool := !d.isEmpty

/-- `DeferredAvroWriter._writer_worker` at a clean shutdown (`stop` called
after all appends): the FIFO queue holds the enqueued records in enqueue
order, and the loop condition `not done or not queue.empty()` drains the whole
queue before the worker exits.  Each dequeued datum reaches the wrapped
writer's `append` only when `if datum:` holds, i.e. when it is truthy.  The
accumulator collects the wrapped `append` calls in order. -/
def writer_worker_drain : List Rec → List Rec → List Rec
  | [], appended => appended
  | d :: rest, appended =>
    writer_worker_drain rest (if pyTruthy d then appended ++ [d] else appended)

/-! ### External-merge sorter (`src/avrokit/tools/filesort.py`) -/

section Sorter

variable {R K : Type} [LinearOrder K]

/-- Stable insertion of a record into an already-sorted later suffix: the
earlier element `x` stays in front of every element it does not strictly
follow. -/
def insertSorted (le : R → R → Bool) (x : R) : List R → List R
  | [] => [x]
  | y :: ys => if le x y then x :: y :: ys else y :: insertSorted le x ys

/-- A stable sort.  Python's `sorted` is stable, and all stable sorts under a
total preorder compute the same permutation, so insertion sort models
`sorted(records, key=sort_key, reverse=reverse)` exactly. -/
def stableSort (le : R → R → Bool) : List R → List R
  | [] => []
  | x :: xs => insertSorted le x (stableSort le xs)

/-- `sorted(records, key=sort_key, reverse=reverse)` over a key projection
into a linear order: ascending on the key, or descending when `reverse`
(ties keep their original order either way). -/
def sortBatch (key : R → K) (reverse : Bool) (records : List R) : List R :=
  stableSort
    (fun a b => if reverse then decide (key b ≤ key a) else decide (key a ≤ key b))
    records

/-- The batching loop of `FileSortTool.filesort`: append each record to the
in-memory batch and spill when `len(batch) >= batch_size`; a nonempty final
batch is spilled as well. -/
def batchLoop (batch_size : Nat) : List R → List R → List (List R)
  | [], batch => if batch.isEmpty then [] else [batch]
  | r :: rest, batch =>
    let grown := batch ++ [r]
    if batch_size ≤ grown.length then grown :: batchLoop batch_size rest []
    else batchLoop batch_size rest grown

/-- The spill files `batch_0.avro`, `batch_1.avro`, …, in spill order: each
batch sorted by the key (descending under `reverse`). -/
def spillFiles (key : R → K) (reverse : Bool) (batch_size : Nat)
    (records : List R) : List (List R) :=
  (batchLoop batch_size records []).map (sortBatch key reverse)

/-- `os.listdir(tmp)` enumerates the spill files in a platform-dependent,
unspecified order; the enumeration is modelled as the list of spill-file
indices in listing order. -/
def listdirOrder (listing : List Nat) (files : List (List R)) : List (List R) :=
  listing.filterMap (fun i => files[i]?)

/-- One step of `heapq.merge(*iters, key=key)`: the heap holds one entry
`(key(head), iterator_order, head)` per nonempty iterator and pops the least,
so the selected iterator is the one whose head has the least key, ties
resolved to the earliest iterator.  Returns its index and head. -/
def pickMin (key : R → K) : List (List R) → Option (Nat × R)
  | [] => none
  | [] :: rest => (pickMin key rest).map (fun p => (p.1 + 1, p.2))
  | (x :: _) :: rest =>
    match pickMin key rest with
    | none => some (0, x)
    | some p => if key p.2 < key x then some (p.1 + 1, p.2) else some (0, x)

/-- Remove the head of iterator `i` (the merge advances that iterator). -/
def popAt : List (List R) → Nat → List (List R)
  | [], _ => []
  | l :: rest, 0 => l.tail :: rest
  | l :: rest, i + 1 => l :: popAt rest i

/-- Total number of records left across the iterators. -/
def sumLen (iters : List (List R)) : Nat := (iters.map List.length).sum

/-- The merge loop with explicit fuel (one unit per emitted record). -/
def mergeAllAux (key : R → K) : Nat → List (List R) → List R
  | 0, _ => []
  | fuel + 1, iters =>
    match pickMin key iters with
    | none => []
    | some p => p.2 :: mergeAllAux key fuel (popAt iters p.1)

/-- `heapq.merge(*sorted_iterators, key=sort_key)`: repeatedly emit the
least-keyed head, earliest iterator first on ties, until all iterators are
exhausted.  The source passes no `reverse` argument to `heapq.merge`, so the
merge is always ascending. -/
def mergeAll (key : R → K) (iters : List (List R)) : List R :=
  mergeAllAux key (sumLen iters) iters

/-- `FileSortTool.filesort`: batch the input records, sort and spill each
batch, then merge the spill files in `os.listdir` order via `heapq.merge`
keyed by the same sort key (ascending regardless of `reverse`), appending the
merged records to the output. -/
def filesort (key : R → K) (reverse : Bool) (batch_size : Nat)
    (records : List R) (listing : List Nat) : List R :=
  mergeAll key (listdirOrder listing (spillFiles key reverse batch_size records))

end Sorter

/-- `record.get(f)` for an integer-valued record dict: `⊥` models Python's
`None` for a missing field.  Python raises on ordered comparisons between
`None` and an int, so key comparisons are only meaningful — and only used by
the theorems below — on records that carry every sort field. -/
def recGet (r : Rec) (f : String) : WithBot Int :=
  match r.lookup f with
  | none => ⊥
  | some v => (v : WithBot Int)

/-- `FileSortTool.sort_key(sort_fields)`:
`record -> tuple(record.get(f) for f in sort_fields)`, ordered
lexicographically. -/
def sort_key (sort_fields : List String) (r : Rec) : List (WithBot Int) :=
  sort_fields.map (recGet r)

/-! ### Sequential partition naming (`PartitionedAvroWriter.next_filename`) -/

/-- The character for decimal digit `d`. -/
def digitChar (d : Nat) : Char := Char.ofNat ('0'.toNat + d)

/-- Decimal digit characters of `n`, most significant first (Python's
`str(i)`), written with explicit fuel so that it evaluates structurally. -/
def natDigitsAux : Nat → Nat → List Char
  | 0, _ => []
  | fuel + 1, n =>
    if n < 10 then [digitChar n]
    else natDigitsAux fuel (n / 10) ++ [digitChar (n % 10)]

/-- `str(i)` for a natural number. -/
def natStr (n : Nat) : List Char := natDigitsAux (n + 1) n

/-- Python's `f"{i:05d}"`: decimal digits zero-padded on the left to width at
least 5 (wider numbers keep all their digits). -/
def pad5 (i : Nat) : List Char :=
  List.replicate (5 - (natStr i).length) '0' ++ natStr i

/-- `f"part-{i:05d}.avro"`. -/
def partName (i : Nat) : String :=
  String.mk ('p' :: 'a' :: 'r' :: 't' :: '-' :: (pad5 i ++ ['.', 'a', 'v', 'r', 'o']))

/-- `int` applied to a run of decimal digit characters. -/
def digitsVal (ds : List Char) : Nat :=
  ds.foldl (fun a c => 10 * a + (c.toNat - '0'.toNat)) 0

/-- Does `part-` followed by at least one digit match at the head?  Returns
the suffix starting at the first captured digit when it does. -/
def matchPartAt : List Char → Option (List Char)
  | 'p' :: 'a' :: 'r' :: 't' :: '-' :: d :: rest =>
    if d.isDigit then some (d :: rest) else none
  | _ => none

/-- `re.search(r"part-(\d+)", s)`: value of the leftmost occurrence of `part-`
followed by a maximal run of at least one digit. -/
def searchPartNum : List Char → Option Nat
  | [] => none
  | c :: rest =>
    match matchPartAt (c :: rest) with
    | some ds => some (digitsVal (ds.takeWhile Char.isDigit))
    | none => searchPartNum rest

/-- `PartitionedAvroWriter.next_filename`: `i = 0`; a truthy previous name
must contain `part-<digits>` (else `ValueError`), and `i` becomes that number
plus one; returns `f"part-{i:05d}.avro"`.  An empty previous string is falsy
in Python and behaves like `None`. -/
def next_filename (previous : Option String) : Except String String :=
  match previous with
  | none => .ok (partName 0)
  | some p =>
    if p.data.isEmpty then .ok (partName 0)
    else
      match searchPartNum p.data with
      | none => .error ("Invalid filename format: " ++ p)
      | some n => .ok (partName (n + 1))

/-- The spec's sequential filename grammar `part-[0-9]{5}\.avro`: exactly five
digits between `part-` and `.avro`. -/
def matchesPartGrammar (s : String) : Bool :=
  match s.data with
  | 'p' :: 'a' :: 'r' :: 't' :: '-' :: rest =>
    (rest.take 5).all Char.isDigit && decide (rest.drop 5 = ['.', 'a', 'v', 'r', 'o'])
  | _ => false

/-! ### Theorems about the count, repair, concat pre-flight and writer state -/

/-- Fast count over blocks that all carry the expected sync and whose declared
counts match the decoded record counts. -/
theorem fast_count_records_wf (s : List Nat) (dec : Block → List Rec) :
    ∀ blocks : List Block, (∀ b ∈ blocks, b.sync = s) →
      (∀ b ∈ blocks, b.count = (dec b).length) →
      fast_count_records s blocks = ((blocks.flatMap dec).length, false) := by
  intro blocks
  induction blocks with
  | nil => intro _ _; rfl
  | cons b rest ih =>
    intro hsync hcount
    have hb : b.sync = s := hsync b (List.mem_cons_self b rest)
    have hc : b.count = (dec b).length := hcount b (List.mem_cons_self b rest)
    have ih' := ih (fun x hx => hsync x (List.mem_cons_of_mem b hx))
      (fun x hx => hcount x (List.mem_cons_of_mem b hx))
    simp [fast_count_records, hb, ih', hc]

/-- Fast count over a good prefix followed by a sync-mismatched block: the
total is the prefix counts plus the mismatched block's count, with a warning. -/
theorem fast_count_records_mismatch (s : List Nat) :
    ∀ (good : List Block) (bad : Block) (rest : List Block),
      (∀ b ∈ good, b.sync = s) → bad.sync ≠ s →
      fast_count_records s (good ++ bad :: rest) =
        ((good.map Block.count).sum + bad.count, true) := by
  intro good
  induction good with
  | nil =>
    intro bad rest _ hbad
    simp [fast_count_records, hbad]
  | cons g gs ih =>
    intro bad rest hsync hbad
    have hg : g.sync = s := hsync g (List.mem_cons_self g gs)
    have ih' := ih bad rest (fun x hx => hsync x (List.mem_cons_of_mem g hx)) hbad
    simp [fast_count_records, hg, ih']
    omega

/-- C5: for every non-truncated OCF file the fast counter returns exactly the
number of records obtained by decoding the file, with no warning emitted; and
for every file whose block scan hits a trailing-sync mismatch the counter
returns normally (no error) with the total accumulated so far, after emitting
the warning that the file may still be open for writing. -/
theorem fast_count_correct :
    (∀ (decode : List Nat → List Nat → List Rec) (f : OCFFile),
      WellFormed decode f → fast_count f = ((decodeFile decode f).length, false)) ∧
    (∀ (f : OCFFile) (good : List Block) (bad : Block) (rest : List Block),
      f.blocks = good ++ bad :: rest → (∀ b ∈ good, b.sync = f.sync) →
      bad.sync ≠ f.sync →
      fast_count f = ((good.map Block.count).sum + bad.count, true)) := by
  constructor
  · intro decode f hwf
    exact fast_count_records_wf f.sync
      (fun b => decode f.schemaBytes b.payload) f.blocks hwf.1 hwf.2
  · intro f good bad rest hblocks hsync hbad
    unfold fast_count
    rw [hblocks]
    exact fast_count_records_mismatch f.sync good bad rest hsync hbad

/-- Witness for C5 on concrete files: a well-formed two-record file counts 2
with no warning; a file whose second block has a mismatched sync counts the
accumulated 6 records with the warning flag set. -/
theorem fast_count_correct_witness :
    fast_count ⟨[1], [2], [7, 7], [⟨2, [5, 6], [7, 7]⟩]⟩ = (2, false) ∧
    fast_count ⟨[1], [2], [7, 7], [⟨1, [9], [7, 7]⟩, ⟨5, [1], [0]⟩]⟩ = (6, true) := by
  constructor
  · have h := fast_count_correct.1
      (fun _ payload => payload.map (fun n => [("v", (n : Int))]))
      ⟨[1], [2], [7, 7], [⟨2, [5, 6], [7, 7]⟩]⟩ (by decide)
    simpa using h
  · have h := fast_count_correct.2
      ⟨[1], [2], [7, 7], [⟨1, [9], [7, 7]⟩, ⟨5, [1], [0]⟩]⟩
      [⟨1, [9], [7, 7]⟩] ⟨5, [1], [0]⟩ [] rfl (by decide) (by decide)
    simpa using h

/-- Decoding a block whose record-decode attempts fail first at position
`good.length`: exactly the previously decoded records are appended and the
block is reported corrupt. -/
theorem decode_block_records_firstFail (good : List Rec) (rest : List (Option Rec)) :
    decode_block_records (good.map some ++ none :: rest) = (good, true) := by
  induction good with
  | nil => rfl
  | cons r g ih => simp [decode_block_records, ih]

/-- The repair loop distributes over list append: outputs concatenate and the
block / corrupt-block counters add. -/
theorem repair_blocks_append (s : List Nat) (l1 l2 : List RepairBlock) :
    repair_blocks s (l1 ++ l2) =
      ((repair_blocks s l1).1 ++ (repair_blocks s l2).1,
       (repair_blocks s l1).2.1 + (repair_blocks s l2).2.1,
       (repair_blocks s l1).2.2 + (repair_blocks s l2).2.2) := by
  induction l1 with
  | nil => simp [repair_blocks]
  | cons b l1 ih =>
    by_cases hb : b.sync = s
    · simp [repair_blocks, hb, ih]
      constructor
      · omega
      · omega
    · simp [repair_blocks, hb, ih]
      constructor
      · omega
      · omega

/-- C6: during repair of a block whose trailing sync matches the expected sync,
if decoding one of the block's declared records fails, the repair loop
increments the corrupt-block counter by exactly one, appends no further record
from that block, and continues with the next block; the records decoded before
the failure are already in the output, between the repaired prefix and the
repaired suffix. -/
theorem repair_record_failure (s : List Nat) (pre post : List RepairBlock)
    (b : RepairBlock) (good : List Rec) (rest : List (Option Rec))
    (hsync : b.sync = s) (hatt : b.attempts = good.map some ++ none :: rest) :
    repair_blocks s (pre ++ b :: post) =
      ((repair_blocks s pre).1 ++ good ++ (repair_blocks s post).1,
       (repair_blocks s pre).2.1 + 1 + (repair_blocks s post).2.1,
       (repair_blocks s pre).2.2 + 1 + (repair_blocks s post).2.2) := by
  rw [repair_blocks_append]
  simp only [repair_blocks, hsync, hatt, decode_block_records_firstFail, if_pos rfl]
  simp
  constructor
  · omega
  · omega

/-- Witness for C6: a single sync-matching block whose second record fails to
decode yields one appended record, one block read and one corrupt block. -/
theorem repair_record_failure_witness :
    repair_blocks [7] [⟨[7], [some [("a", 1)], none]⟩] = ([[("a", 1)]], 1, 1) := by
  have h := repair_record_failure [7] [] [] ⟨[7], [some [("a", 1)], none]⟩
    [[("a", 1)]] [] rfl rfl
  simpa using h

/-- Splicing raw blocks under one schema: rewriting each block's trailing sync
does not change what the codec decodes from its payload, so decoding the
spliced blocks of several same-schema inputs decodes each input in turn. -/
theorem flatMap_resync_decode (decode : List Nat → List Nat → List Rec)
    (S s' : List Nat) :
    ∀ l : List OCFFile, (∀ f ∈ l, f.schemaBytes = S) →
      ((l.flatMap (fun f => f.blocks.map (fun b => { b with sync := s' }))).flatMap
          (fun b => decode S b.payload))
        = l.flatMap (decodeFile decode) := by
  intro l
  induction l with
  | nil => intro _; rfl
  | cons f fs ih =>
    intro hs
    have hf : f.schemaBytes = S := hs f (List.mem_cons_self f fs)
    have ih' := ih (fun x hx => hs x (List.mem_cons_of_mem f hx))
    simp only [List.flatMap_cons, List.flatMap_append, ih']
    have hblocks : (f.blocks.map (fun b => { b with sync := s' })).flatMap
        (fun b => decode S b.payload) = decodeFile decode f := by
      simp [decodeFile, List.flatMap_map, Function.comp, hf]
    rw [hblocks]

/-- C4: for every nonempty list of input OCF files whose `avro.schema` metadata
bytes are byte-identical and whose codec equals the desired codec,
`block_concat` produces a file whose decoded record sequence equals the one
produced by record-level `concat` on the same inputs in the same order; every
block it emits ends with the output's sync marker, which is the first input's
sync marker. -/
theorem block_concat_equiv
    (decode : List Nat → List Nat → List Rec) (desired_codec : String)
    (first : OCFFile) (rest : List OCFFile)
    (hschema : ∀ f ∈ first :: rest, f.schemaBytes = first.schemaBytes)
    (hcodec : ∀ f ∈ first :: rest, f.codec = encodeUtf8 desired_codec) :
    ∃ out : OCFFile, block_concat (first :: rest) = some out ∧
      decodeFile decode out = concat_records decode (first :: rest) ∧
      (∀ b ∈ out.blocks, b.sync = out.sync) ∧
      out.sync = first.sync := by
  refine ⟨_, rfl, ?_, ?_, rfl⟩
  · simp only [decodeFile]
    exact flatMap_resync_decode decode first.schemaBytes first.sync
      (first :: rest) hschema
  · intro b hb
    simp only [List.mem_flatMap, List.mem_map] at hb
    obtain ⟨f, _, b', _, hb'⟩ := hb
    rw [← hb']

/-- Witness for C4 on two concrete single-block files sharing schema bytes and
the `null` codec. -/
theorem block_concat_equiv_witness :
    ∃ out : OCFFile,
      block_concat
        [⟨[1, 2], encodeUtf8 "null", [7, 7], [⟨1, [5], [7, 7]⟩]⟩,
         ⟨[1, 2], encodeUtf8 "null", [9, 9], [⟨1, [6], [9, 9]⟩]⟩] = some out ∧
      decodeFile (fun _ payload => payload.map (fun n => [("v", (n : Int))])) out =
        concat_records (fun _ payload => payload.map (fun n => [("v", (n : Int))]))
          [⟨[1, 2], encodeUtf8 "null", [7, 7], [⟨1, [5], [7, 7]⟩]⟩,
           ⟨[1, 2], encodeUtf8 "null", [9, 9], [⟨1, [6], [9, 9]⟩]⟩] ∧
      (∀ b ∈ out.blocks, b.sync = out.sync) ∧
      out.sync = [7, 7] :=
  block_concat_equiv (fun _ payload => payload.map (fun n => [("v", (n : Int))]))
    "null"
    ⟨[1, 2], encodeUtf8 "null", [7, 7], [⟨1, [5], [7, 7]⟩]⟩
    [⟨[1, 2], encodeUtf8 "null", [9, 9], [⟨1, [6], [9, 9]⟩]⟩]
    (by intro f hf; fin_cases hf <;> rfl)
    (by intro f hf; fin_cases hf <;> rfl)

theorem digitChar_isDigit : ∀ d, d < 10 → (digitChar d).isDigit = true := by decide

theorem natDigitsAux_all_digits :
    ∀ fuel n, (natDigitsAux fuel n).all Char.isDigit = true := by
  intro fuel
  induction fuel with
  | zero => intro n; rfl
  | succ fuel ih =>
    intro n
    by_cases h : n < 10
    · simp [natDigitsAux, h, digitChar_isDigit n h]
    · simp [natDigitsAux, h, ih (n / 10),
        digitChar_isDigit (n % 10) (Nat.mod_lt n (by omega))]

theorem pad5_all_digits (n : Nat) : (pad5 n).all Char.isDigit = true := by
  have hrep : (List.replicate (5 - (natStr n).length) '0').all Char.isDigit = true := by
    simp [List.all_eq_true]
  simp [pad5, List.all_append, hrep, natStr, natDigitsAux_all_digits]

theorem pad5_length (n : Nat) : 5 ≤ (pad5 n).length := by
  simp only [pad5, List.length_append, List.length_replicate]
  omega

/-- A maximal digit run stops at the `.` of `.avro`. -/
theorem takeWhile_digits (ds r : List Char) (h : ds.all Char.isDigit = true) :
    (ds ++ '.' :: r).takeWhile Char.isDigit = ds := by
  induction ds with
  | nil => rfl
  | cons c cs ih =>
    simp only [List.all_cons, Bool.and_eq_true] at h
    simp [List.takeWhile_cons, h.1, ih h.2]

/-- If `part-<digit>` matches at no position of `l`, the regex search fails. -/
theorem searchPartNum_eq_none (l : List Char)
    (h : ∀ i < l.length, matchPartAt (l.drop i) = none) : searchPartNum l = none := by
  induction l with
  | nil => rfl
  | cons c rest ih =>
    have h0 := h 0 (by simp)
    simp only [List.drop_zero] at h0
    rw [searchPartNum, h0]
    exact ih (fun i hi => by
      have := h (i + 1) (by simpa using Nat.succ_lt_succ hi)
      simpa using this)

/-- C7 counterexample: the successor of `part-99999.avro` is
`part-100000.avro`, which has six digits and so escapes the claimed grammar
`part-[0-9]{5}\.avro`; moreover the empty previous name is falsy in Python, so
instead of raising it restarts the sequence at `part-00000.avro`. -/
theorem next_filename_grammar_counterexample :
    next_filename (some "part-99999.avro") = .ok "part-100000.avro" ∧
    matchesPartGrammar "part-100000.avro" = false ∧
    matchesPartGrammar "part-99999.avro" = true ∧
    next_filename (some "") = .ok "part-00000.avro" :=
  ⟨rfl, by decide, by decide, rfl⟩

/-- C7 as amended: `next_filename None` is `part-00000.avro`; a previous name
`part-<digits>.avro` yields `part-<digits+1>.avro` zero-padded to at least
five digits; a nonempty previous name containing no `part-<digit>` occurrence
raises a `ValueError`; and every produced filename is `part-` followed by at
least five decimal digits and `.avro` (exactly five only while the counter
stays below 100000, as the counterexample shows). -/
theorem next_filename_spec :
    (next_filename none = .ok "part-00000.avro") ∧
    (∀ (d : Char) (ds : List Char), (d :: ds).all Char.isDigit = true →
      next_filename (some (String.mk
          ('p' :: 'a' :: 'r' :: 't' :: '-' :: d :: (ds ++ ['.', 'a', 'v', 'r', 'o']))))
        = .ok (partName (digitsVal (d :: ds) + 1))) ∧
    (∀ s : String, ¬ s.data.isEmpty →
      (∀ i < s.data.length, matchPartAt (s.data.drop i) = none) →
      next_filename (some s) = .error ("Invalid filename format: " ++ s)) ∧
    (∀ prev fname, next_filename prev = .ok fname →
      ∃ n : Nat, fname = partName n ∧ 5 ≤ (pad5 n).length ∧
        (pad5 n).all Char.isDigit = true) := by
  refine ⟨rfl, ?_, ?_, ?_⟩
  · intro d ds h
    have hd : d.isDigit = true := by
      simp only [List.all_cons, Bool.and_eq_true] at h
      exact h.1
    have hm : matchPartAt
        ('p' :: 'a' :: 'r' :: 't' :: '-' :: d :: (ds ++ ['.', 'a', 'v', 'r', 'o']))
        = some (d :: (ds ++ ['.', 'a', 'v', 'r', 'o'])) := by
      simp [matchPartAt, hd]
    have htw : (d :: (ds ++ ['.', 'a', 'v', 'r', 'o'])).takeWhile Char.isDigit
        = d :: ds := by
      simpa using takeWhile_digits (d :: ds) ['a', 'v', 'r', 'o'] h
    have hsearch : searchPartNum
        ('p' :: 'a' :: 'r' :: 't' :: '-' :: d :: (ds ++ ['.', 'a', 'v', 'r', 'o']))
        = some (digitsVal (d :: ds)) := by
      simp [searchPartNum, hm, htw]
    simp [next_filename, hsearch]
  · intro s hne h
    have hs : searchPartNum s.data = none := searchPartNum_eq_none s.data h
    simp [next_filename, hne, hs]
  · intro prev fname h
    match prev with
    | none =>
      refine ⟨0, ?_, pad5_length 0, pad5_all_digits 0⟩
      simpa [next_filename] using h.symm
    | some p =>
      rw [next_filename] at h
      by_cases he : p.data.isEmpty
      · rw [if_pos he] at h
        exact ⟨0, (by simpa using h.symm), pad5_length 0, pad5_all_digits 0⟩
      · rw [if_neg he] at h
        match hsp : searchPartNum p.data with
        | none => rw [hsp] at h; exact absurd h (by simp)
        | some n =>
          rw [hsp] at h
          exact ⟨n + 1, (by simpa using h.symm), pad5_length (n + 1), pad5_all_digits (n + 1)⟩

/-- Witness for C7 at concrete names: `part-00041.avro` steps to
`part-00042.avro` and `foo` raises. -/
theorem next_filename_spec_witness :
    next_filename (some "part-00041.avro") = .ok "part-00042.avro" ∧
    next_filename (some "foo") = .error "Invalid filename format: foo" := by
  constructor
  · exact next_filename_spec.2.1 '0' ['0', '0', '4', '1'] (by decide)
  · exact next_filename_spec.2.2.1 "foo" (by decide) (by decide)

section SorterLemmas

variable {R K : Type} [LinearOrder K] (key : R → K)

theorem sumLen_cons (l : List R) (rest : List (List R)) :
    sumLen (l :: rest) = l.length + sumLen rest := by
  simp [sumLen]

theorem sumLen_eq_zero {iters : List (List R)} (h : sumLen iters = 0) :
    ∀ (i : Nat) (l : List R), iters[i]? = some l → l = [] := by
  induction iters with
  | nil => intro i l hl; simp at hl
  | cons hd rest ih =>
    rw [sumLen_cons] at h
    intro i l hl
    match i with
    | 0 =>
      simp at hl
      subst hl
      exact List.eq_nil_of_length_eq_zero (by omega)
    | i + 1 =>
      exact ih (by omega) i l (by simpa using hl)

theorem pickMin_eq_none {iters : List (List R)} (h : pickMin key iters = none) :
    ∀ (i : Nat) (l : List R), iters[i]? = some l → l = [] := by
  induction iters with
  | nil => intro i l hl; simp at hl
  | cons hd rest ih =>
    match hd with
    | [] =>
      rw [pickMin] at h
      have hrest : pickMin key rest = none := by
        cases hr : pickMin key rest with
        | none => rfl
        | some p =>
          simp only [hr, Option.map_some'] at h
          exact absurd h (by simp)
      intro i l hl
      match i with
        | 0 =>
          simp only [List.getElem?_cons_zero, Option.some.injEq] at hl
          exact hl.symm
        | i + 1 => exact ih hrest i l (by simpa using hl)
    | x :: t =>
      rw [pickMin] at h
      cases hr : pickMin key rest with
      | none =>
        simp only [hr] at h
        exact absurd h (by simp)
      | some p =>
        simp only [hr] at h
        by_cases hlt : key p.2 < key x <;> simp [hlt] at h

theorem pickMin_spec {iters : List (List R)} {p : Nat × R}
    (h : pickMin key iters = some p) :
    (∃ t, iters[p.1]? = some (p.2 :: t)) ∧
    ∀ q < p.1, ∀ lq, iters[q]? = some lq →
      lq = [] ∨ ∃ h' t', lq = h' :: t' ∧ key p.2 < key h' := by
  induction iters generalizing p with
  | nil => simp [pickMin] at h
  | cons hd rest ih =>
    match hd with
    | [] =>
      rw [pickMin] at h
      cases hr : pickMin key rest with
      | none =>
        simp only [hr, Option.map_none'] at h
        exact absurd h (by simp)
      | some p' =>
        simp only [hr, Option.map_some', Option.some.injEq] at h
        subst h
        obtain ⟨⟨t, ht⟩, hstrict⟩ := ih hr
        refine ⟨⟨t, by simpa using ht⟩, ?_⟩
        intro q hq lq hlq
        match q with
        | 0 =>
          left
          simp only [List.getElem?_cons_zero, Option.some.injEq] at hlq
          exact hlq.symm
        | q + 1 =>
          exact hstrict q (by omega) lq (by simpa using hlq)
    | x :: t0 =>
      rw [pickMin] at h
      cases hr : pickMin key rest with
      | none =>
        simp only [hr, Option.some.injEq] at h
        subst h
        exact ⟨⟨t0, by simp⟩, fun q hq => by omega⟩
      | some p' =>
        simp only [hr] at h
        by_cases hlt : key p'.2 < key x
        · rw [if_pos hlt] at h
          simp only [Option.some.injEq] at h
          subst h
          obtain ⟨⟨t, ht⟩, hstrict⟩ := ih hr
          refine ⟨⟨t, by simpa using ht⟩, ?_⟩
          intro q hq lq hlq
          match q with
          | 0 =>
            right
            refine ⟨x, t0, ?_, hlt⟩
            simp only [List.getElem?_cons_zero, Option.some.injEq] at hlq
            exact hlq.symm
          | q + 1 =>
            exact hstrict q (by omega) lq (by simpa using hlq)
        · rw [if_neg hlt] at h
          simp only [Option.some.injEq] at h
          subst h
          exact ⟨⟨t0, by simp⟩, fun q hq => by omega⟩

theorem popAt_getElem_ne :
    ∀ (iters : List (List R)) (i q : Nat), q ≠ i →
      (popAt iters i)[q]? = iters[q]? := by
  intro iters
  induction iters with
  | nil => intro i q _; simp [popAt]
  | cons hd rest ih =>
    intro i q hqi
    match i, q with
    | 0, 0 => omega
    | 0, q + 1 => simp [popAt]
    | i + 1, 0 => simp [popAt]
    | i + 1, q + 1 =>
      simp only [popAt, List.getElem?_cons_succ]
      exact ih i q (by omega)

theorem popAt_getElem_eq :
    ∀ (iters : List (List R)) (i : Nat) (x : R) (t : List R),
      iters[i]? = some (x :: t) → (popAt iters i)[i]? = some t := by
  intro iters
  induction iters with
  | nil => intro i x t hl; simp at hl
  | cons hd rest ih =>
    intro i x t hl
    match i with
    | 0 =>
      simp only [List.getElem?_cons_zero, Option.some.injEq] at hl
      subst hl
      simp [popAt]
    | i + 1 =>
      simp only [popAt, List.getElem?_cons_succ]
      exact ih i x t (by simpa using hl)

theorem sumLen_popAt :
    ∀ (iters : List (List R)) (i : Nat) (x : R) (t : List R),
      iters[i]? = some (x :: t) → sumLen (popAt iters i) + 1 = sumLen iters := by
  intro iters
  induction iters with
  | nil => intro i x t hl; simp at hl
  | cons hd rest ih =>
    intro i x t hl
    match i with
    | 0 =>
      simp at hl
      subst hl
      simp [popAt, sumLen_cons]
      omega
    | i + 1 =>
      have := ih i x t (by simpa using hl)
      simp only [popAt, sumLen_cons]
      omega

theorem popAt_mem :
    ∀ (iters : List (List R)) (i : Nat) (l : List R), l ∈ popAt iters i →
      l ∈ iters ∨ ∃ l' ∈ iters, l = l'.tail := by
  intro iters
  induction iters with
  | nil => intro i l hl; simp [popAt] at hl
  | cons hd rest ih =>
    intro i l hl
    match i with
    | 0 =>
      rcases List.mem_cons.mp hl with h | h
      · exact Or.inr ⟨hd, List.mem_cons_self hd rest, h⟩
      · exact Or.inl (List.mem_cons_of_mem hd h)
    | i + 1 =>
      rcases List.mem_cons.mp hl with h | h
      · exact Or.inl (by simp [h])
      · rcases ih i l h with h' | ⟨l', hl', he⟩
        · exact Or.inl (List.mem_cons_of_mem hd h')
        · exact Or.inr ⟨l', List.mem_cons_of_mem hd hl', he⟩

theorem flatten_popAt :
    ∀ (iters : List (List R)) (i : Nat) (x : R) (t : List R),
      iters[i]? = some (x :: t) →
      List.Perm iters.flatten (x :: (popAt iters i).flatten) := by
  intro iters
  induction iters with
  | nil => intro i x t hl; simp at hl
  | cons hd rest ih =>
    intro i x t hl
    match i with
    | 0 =>
      simp at hl
      subst hl
      simp [popAt]
    | i + 1 =>
      have hperm := ih i x t (by simpa using hl)
      simp only [popAt, List.flatten_cons]
      exact (hperm.append_left hd).trans List.perm_middle

theorem flatten_eq_nil_of_sumLen_zero {iters : List (List R)}
    (h : sumLen iters = 0) : iters.flatten = [] := by
  have hlen : iters.flatten.length = 0 := by
    rw [List.length_flatten]
    exact h
  exact List.eq_nil_of_length_eq_zero hlen

/-- The merge emits a permutation of everything left in the iterators (nothing
is lost or duplicated) when given enough fuel. -/
theorem mergeAllAux_perm :
    ∀ (fuel : Nat) (iters : List (List R)), sumLen iters ≤ fuel →
      List.Perm (mergeAllAux key fuel iters) iters.flatten := by
  intro fuel
  induction fuel with
  | zero =>
    intro iters hf
    rw [mergeAllAux, flatten_eq_nil_of_sumLen_zero (Nat.le_zero.mp hf)]
  | succ fuel ih =>
    intro iters hf
    cases hp : pickMin key iters with
    | none =>
      have hempty : ∀ l ∈ iters, l = [] := by
        intro l hl
        obtain ⟨i, hi⟩ := List.getElem?_of_mem hl
        exact pickMin_eq_none key hp i l hi
      have hnil : iters.flatten = [] := List.flatten_eq_nil_iff.mpr hempty
      simp [mergeAllAux, hp, hnil]
    | some p =>
      obtain ⟨⟨t, ht⟩, _⟩ := pickMin_spec key hp
      have hsum := sumLen_popAt iters p.1 p.2 t ht
      have hrec := ih (popAt iters p.1) (by omega)
      have hstep : mergeAllAux key (fuel + 1) iters
          = p.2 :: mergeAllAux key fuel (popAt iters p.1) := by
        simp [mergeAllAux, hp]
      rw [hstep]
      exact (hrec.cons p.2).trans (flatten_popAt iters p.1 p.2 t ht).symm

/-- In a key-sorted list, the head's key bounds every member's key. -/
theorem key_head_le {l : List R} (hl : l.Pairwise (fun x y => key x ≤ key y))
    {c : R} {cs : List R} (hcons : l = c :: cs) {a : R} (ha : a ∈ l) :
    key c ≤ key a := by
  subst hcons
  rcases List.mem_cons.mp ha with h | h
  · subst h; exact le_refl _
  · exact (List.pairwise_cons.mp hl).1 a h

/-- Key-sortedness of every iterator survives popping a head. -/
theorem popAt_sorted {iters : List (List R)}
    (hs : ∀ l ∈ iters, l.Pairwise (fun x y => key x ≤ key y)) (i : Nat) :
    ∀ l ∈ popAt iters i, l.Pairwise (fun x y => key x ≤ key y) := by
  intro l hl
  rcases popAt_mem iters i l hl with h | ⟨l', hl', he⟩
  · exact hs l h
  · subst he
    match l', hs l' hl' with
    | [], _ => simp
    | x :: xs, hp => exact (List.pairwise_cons.mp hp).2

/-- Stability of the merge, with fuel: if `a` sits in an earlier iterator than
`b`, all iterators are sorted ascending by key, and the two keys are equal,
then `a` is emitted before `b`. -/
theorem mergeAllAux_stable :
    ∀ (fuel : Nat) (iters : List (List R)), sumLen iters ≤ fuel →
      (∀ l ∈ iters, l.Pairwise (fun x y => key x ≤ key y)) →
      ∀ (i j : Nat) (li lj : List R) (a b : R), i < j →
        iters[i]? = some li → iters[j]? = some lj →
        a ∈ li → b ∈ lj → key a = key b →
        List.Sublist [a, b] (mergeAllAux key fuel iters) := by
  intro fuel
  induction fuel with
  | zero =>
    intro iters hfuel _ i j li lj a b hij hli hlj ha hb hk
    have hnil : li = [] := sumLen_eq_zero (Nat.le_zero.mp hfuel) i li hli
    exact absurd ha (by simp [hnil])
  | succ fuel ih =>
    intro iters hfuel hsorted i j li lj a b hij hli hlj ha hb hk
    cases hp : pickMin key iters with
    | none =>
      have hnil : li = [] := pickMin_eq_none key hp i li hli
      exact absurd ha (by simp [hnil])
    | some p =>
      obtain ⟨⟨t, ht⟩, hstrict⟩ := pickMin_spec key hp
      have hstep : mergeAllAux key (fuel + 1) iters
          = p.2 :: mergeAllAux key fuel (popAt iters p.1) := by
        simp [mergeAllAux, hp]
      rw [hstep]
      have hfuel' : sumLen (popAt iters p.1) ≤ fuel := by
        have := sumLen_popAt iters p.1 p.2 t ht
        omega
      have hsorted' := popAt_sorted key hsorted p.1
      have hmemli : li ∈ iters := List.getElem?_mem hli
      by_cases hra : p.2 = a
      · -- the merge emits `a` now; `b` must survive in the popped state
        have hpj : p.1 ≠ j := by
          intro he
          rcases hstrict i (by omega) li hli with hnl | ⟨h', t', hcons, hlt⟩
          · exact absurd ha (by simp [hnl])
          · have hle := key_head_le key (hsorted li hmemli) hcons ha
            rw [hra] at hlt
            exact absurd (lt_of_lt_of_le hlt hle) (lt_irrefl _)
        have hlj' : (popAt iters p.1)[j]? = some lj :=
          (popAt_getElem_ne iters p.1 j (fun hh => hpj hh.symm)).trans hlj
        have hbfl : b ∈ (popAt iters p.1).flatten :=
          List.mem_flatten.mpr ⟨lj, List.getElem?_mem hlj', hb⟩
        have hbrec : b ∈ mergeAllAux key fuel (popAt iters p.1) :=
          ((mergeAllAux_perm key fuel (popAt iters p.1) hfuel').mem_iff).mpr hbfl
        rw [hra]
        exact (List.singleton_sublist.mpr hbrec).cons₂ a
      · -- the merge emits something other than `a`; both survive
        have hasurv : ∃ li', (popAt iters p.1)[i]? = some li' ∧ a ∈ li' := by
          by_cases hpi : p.1 = i
          · have hti : iters[i]? = some (p.2 :: t) := hpi ▸ ht
            have hlieq : li = p.2 :: t := by
              rw [hli] at hti
              exact Option.some.inj hti
            have hat : a ∈ t := by
              rcases List.mem_cons.mp (hlieq ▸ ha) with h | h
              · exact absurd h.symm hra
              · exact h
            refine ⟨t, ?_, hat⟩
            rw [hpi] at ht ⊢
            exact popAt_getElem_eq iters i p.2 t ht
          · exact ⟨li,
              (popAt_getElem_ne iters p.1 i (fun hh => hpi hh.symm)).trans hli, ha⟩
        have hbsurv : ∃ lj', (popAt iters p.1)[j]? = some lj' ∧ b ∈ lj' := by
          by_cases hpj : p.1 = j
          · have htj : iters[j]? = some (p.2 :: t) := hpj ▸ ht
            have hljeq : lj = p.2 :: t := by
              rw [hlj] at htj
              exact Option.some.inj htj
            have hbt : b ∈ t := by
              rcases List.mem_cons.mp (hljeq ▸ hb) with h | h
              · -- b is the emitted head of iterator j: impossible, since the
                -- earlier iterator i holds `a` with an equal key
                exfalso
                rcases hstrict i (by omega) li hli with hnl | ⟨h', t', hcons, hlt⟩
                · exact absurd ha (by simp [hnl])
                · have hle := key_head_le key (hsorted li hmemli) hcons ha
                  rw [← h, ← hk] at hlt
                  exact absurd (lt_of_lt_of_le hlt hle) (lt_irrefl _)
              · exact h
            refine ⟨t, ?_, hbt⟩
            rw [hpj] at ht ⊢
            exact popAt_getElem_eq iters j p.2 t ht
          · exact ⟨lj,
              (popAt_getElem_ne iters p.1 j (fun hh => hpj hh.symm)).trans hlj, hb⟩
        obtain ⟨li', hli', ha'⟩ := hasurv
        obtain ⟨lj', hlj', hb'⟩ := hbsurv
        exact (ih (popAt iters p.1) hfuel' hsorted' i j li' lj' a b hij hli' hlj'
          ha' hb' hk).cons p.2

theorem mem_insertSorted (le : R → R → Bool) (x : R) :
    ∀ (l : List R) (z : R), z ∈ insertSorted le x l ↔ z = x ∨ z ∈ l := by
  intro l
  induction l with
  | nil => intro z; simp [insertSorted]
  | cons y ys ih =>
    intro z
    by_cases hle : le x y
    · simp [insertSorted, hle, List.mem_cons]
    · simp only [insertSorted, hle, Bool.false_eq_true, if_false, List.mem_cons, ih]
      tauto

theorem insertSorted_pairwise (x : R) (l : List R)
    (hl : l.Pairwise (fun a b => key a ≤ key b)) :
    (insertSorted (fun a b => decide (key a ≤ key b)) x l).Pairwise
      (fun a b => key a ≤ key b) := by
  induction l with
  | nil => simp [insertSorted]
  | cons y ys ih =>
    obtain ⟨hy, hys⟩ := List.pairwise_cons.mp hl
    by_cases hle : key x ≤ key y
    · rw [insertSorted, if_pos (by simpa using hle)]
      refine List.pairwise_cons.mpr ⟨?_, hl⟩
      intro z hz
      rcases List.mem_cons.mp hz with h | h
      · subst h; exact hle
      · exact le_trans hle (hy z h)
    · rw [insertSorted, if_neg (by simpa using hle)]
      refine List.pairwise_cons.mpr ⟨?_, ih hys⟩
      intro z hz
      rcases (mem_insertSorted _ x ys z).mp hz with h | h
      · subst h; exact le_of_not_le hle
      · exact hy z h

theorem stableSort_pairwise (l : List R) :
    (stableSort (fun a b => decide (key a ≤ key b)) l).Pairwise
      (fun a b => key a ≤ key b) := by
  induction l with
  | nil => simp [stableSort]
  | cons x xs ih =>
    rw [stableSort]
    exact insertSorted_pairwise key x _ ih

/-- Each non-reverse spill file is sorted ascending by the key. -/
theorem spillFiles_sorted (batch_size : Nat) (records : List R) :
    ∀ l ∈ spillFiles key false batch_size records,
      l.Pairwise (fun a b => key a ≤ key b) := by
  intro l hl
  obtain ⟨batch, _, rfl⟩ := List.mem_map.mp hl
  exact stableSort_pairwise key batch

theorem listdirOrder_mem {listing : List Nat} {files : List (List R)}
    {l : List R} (hl : l ∈ listdirOrder listing files) : l ∈ files := by
  obtain ⟨i, _, hi⟩ := List.mem_filterMap.mp hl
  exact List.getElem?_mem hi

end SorterLemmas

/-- C3 counterexample: a falsy datum — here the empty record `{}` — is
enqueued before a clean shutdown but never reaches the wrapped writer's
`append`, because the worker guards the call with `if datum:`. -/
theorem deferred_writer_drops_falsy :
    writer_worker_drain [[("a", 1)], []] [] = [[("a", 1)]] ∧
    ([[("a", 1)]] : List Rec) ≠ [[("a", 1)], []] := by
  constructor
  · rfl
  · decide

/-- The worker's drain with an arbitrary already-appended prefix. -/
theorem writer_worker_drain_acc (enq : List Rec) :
    ∀ appended, writer_worker_drain enq appended = appended ++ enq.filter pyTruthy := by
  induction enq with
  | nil => intro appended; simp [writer_worker_drain]
  | cons d rest ih =>
    intro appended
    by_cases hd : pyTruthy d
    · simp [writer_worker_drain, hd, ih, List.filter_cons]
    · simp [writer_worker_drain, hd, ih, List.filter_cons]

/-- C3 as amended: at a clean shutdown (stop after all appends) the wrapped
writer's `append` is called once, in enqueue order, for every enqueued record
that is truthy; falsy records (such as the empty record) are dequeued but
silently dropped by the `if datum:` guard. -/
theorem deferred_writer_clean_shutdown (enq : List Rec) :
    writer_worker_drain enq [] = enq.filter pyTruthy := by
  simpa using writer_worker_drain_acc enq []

/-- C1 at the failing input (code bug): sorting `{"id": 1}, {"id": 2}` on
`["id"]` with `reverse=True` and `batch_size=1` produces two descending spill
files, but `heapq.merge` is called without `reverse=True`, so under either
possible `os.listdir` enumeration the output comes back ascending — the first
output record's key is strictly below the second's, though the claim demands
descending order. -/
theorem filesort_reverse_not_descending :
    filesort (sort_key ["id"]) true 1 [[("id", 1)], [("id", 2)]] [0, 1]
      = [[("id", 1)], [("id", 2)]] ∧
    filesort (sort_key ["id"]) true 1 [[("id", 1)], [("id", 2)]] [1, 0]
      = [[("id", 1)], [("id", 2)]] ∧
    sort_key ["id"] [("id", 1)] < sort_key ["id"] [("id", 2)] := by
  refine ⟨by decide, by decide, by decide⟩

/-- C8 counterexample: with `batch_size=1`, records of equal key land in spill
files 0 and 1; when `os.listdir` happens to enumerate spill file 1 first, the
merge emits spill file 1's record before spill file 0's — the tie does not go
to the smaller spill-file index. -/
theorem merge_tiebreak_listdir_counterexample :
    spillFiles (sort_key ["k"]) false 1
        [[("k", 0), ("v", 0)], [("k", 0), ("v", 1)]]
      = [[[("k", 0), ("v", 0)]], [[("k", 0), ("v", 1)]]] ∧
    sort_key ["k"] [("k", 0), ("v", 0)] = sort_key ["k"] [("k", 0), ("v", 1)] ∧
    filesort (sort_key ["k"]) false 1
        [[("k", 0), ("v", 0)], [("k", 0), ("v", 1)]] [1, 0]
      = [[("k", 0), ("v", 1)], [("k", 0), ("v", 0)]] := by
  refine ⟨by decide, by decide, by decide⟩

/-- Under `reverse` there is no listdir-order tie-break to state at all: the
spill files are sorted descending while `heapq.merge` stays ascending, so with
keys 3, 5, 3, 1 and `batch_size = 2` the spill files come out `[5, 3]` and
`[3, 1]`, and the merge emits the later-listed equal-keyed record (the `3` of
spill file 1) before the earlier-listed one (the `3` of spill file 0).  This
is why the tie-break theorem below is scoped to non-reverse runs. -/
theorem filesort_reverse_no_tiebreak :
    spillFiles (sort_key ["k"]) true 2
        [[("k", 3), ("v", 0)], [("k", 5)], [("k", 3), ("v", 1)], [("k", 1)]]
      = [[[("k", 5)], [("k", 3), ("v", 0)]], [[("k", 3), ("v", 1)], [("k", 1)]]] ∧
    sort_key ["k"] [("k", 3), ("v", 0)] = sort_key ["k"] [("k", 3), ("v", 1)] ∧
    filesort (sort_key ["k"]) true 2
        [[("k", 3), ("v", 0)], [("k", 5)], [("k", 3), ("v", 1)], [("k", 1)]] [0, 1]
      = [[("k", 3), ("v", 1)], [("k", 1)], [("k", 5)], [("k", 3), ("v", 0)]] := by
  refine ⟨by decide, by decide, by decide⟩

/-- C8 as amended: in the sorter's k-way merge on a non-reverse run, whenever
two records from different spill files have equal projected keys, the record
from the spill file that occurs at the earlier position of the `os.listdir`
enumeration of the spill directory is written to the output first.  (The
enumeration order is platform-dependent and need not be spill-index order, as
the counterexample shows; under `reverse` no such tie-break holds at all, as
`filesort_reverse_no_tiebreak` shows, because the descending spill files defeat
the ascending merge.) -/
theorem filesort_tiebreak_listdir {R K : Type} [LinearOrder K] (key : R → K)
    (batch_size : Nat) (records : List R) (listing : List Nat)
    (pi pj : Nat) (li lj : List R) (a b : R) (hij : pi < pj)
    (hli : (listdirOrder listing (spillFiles key false batch_size records))[pi]?
      = some li)
    (hlj : (listdirOrder listing (spillFiles key false batch_size records))[pj]?
      = some lj)
    (ha : a ∈ li) (hb : b ∈ lj) (hk : key a = key b) :
    List.Sublist [a, b] (filesort key false batch_size records listing) := by
  have hsorted : ∀ l ∈ listdirOrder listing (spillFiles key false batch_size records),
      l.Pairwise (fun x y => key x ≤ key y) := by
    intro l hl
    exact spillFiles_sorted key batch_size records l (listdirOrder_mem hl)
  exact mergeAllAux_stable key
    (sumLen (listdirOrder listing (spillFiles key false batch_size records)))
    (listdirOrder listing (spillFiles key false batch_size records))
    le_rfl hsorted pi pj li lj a b hij hli hlj ha hb hk

/-- Witness for the amended C8: with two equal-keyed records in spill files 0
and 1 and the listing `[1, 0]`, spill file 1's record (earlier in the listing)
precedes spill file 0's in the output. -/
theorem filesort_tiebreak_listdir_witness :
    List.Sublist [[("k", 0), ("v", 1)], [("k", 0), ("v", 0)]]
      (filesort (sort_key ["k"]) false 1
        [[("k", 0), ("v", 0)], [("k", 0), ("v", 1)]] [1, 0]) :=
  filesort_tiebreak_listdir (sort_key ["k"]) 1
    [[("k", 0), ("v", 0)], [("k", 0), ("v", 1)]] [1, 0] 0 1
    [[("k", 0), ("v", 1)]] [[("k", 0), ("v", 0)]]
    [("k", 0), ("v", 1)] [("k", 0), ("v", 0)]
    (by decide) (by decide) (by decide) (by decide) (by decide) (by decide)

/-- C10: `check_schema_and_codec` returns `True` for an empty list of input
URLs, for every desired codec — the block-concat pre-flight passes vacuously
when there are no inputs. -/
theorem check_schema_and_codec_nil (desired_codec : String) :
    check_schema_and_codec [] desired_codec = true := rfl

/-- C9: a `PartitionedAvroWriter` in the Closed state (never opened, or after
`close`) raises `ValueError` on `append`, `flush` and `roll` and leaves the
writer state unchanged; `append` succeeds exactly when a current output writer
is open, and `close` always lands in the Closed state. -/
theorem closed_writer_raises (w : PWriter) (r : Rec) (h : w.current = none) :
    w.append r = (.error "Writer is not initialized.", w) ∧
    w.flush = (.error "Writer is not initialized.", w) ∧
    w.roll = (.error "Writer is not initialized.", w) ∧
    (∀ w' : PWriter, (w'.append r).1 = .ok () ↔ w'.current ≠ none) ∧
    (∀ w' : PWriter, w'.close.current = none) := by
  refine ⟨?_, ?_, ?_, ?_, ?_⟩
  · simp [PWriter.append, h]
  · simp [PWriter.flush, h]
  · simp [PWriter.roll, h]
  · intro w'
    cases hc : w'.current <;> simp [PWriter.append, hc]
  · intro w'
    cases hc : w'.current <;> simp [PWriter.close, hc]

/-- Witness for C9 at the freshly constructed writer. -/
theorem closed_writer_raises_witness :
    PWriter.init.append [("a", 1)] =
      (.error "Writer is not initialized.", PWriter.init) ∧
    PWriter.init.flush = (.error "Writer is not initialized.", PWriter.init) ∧
    PWriter.init.roll = (.error "Writer is not initialized.", PWriter.init) ∧
    (∀ w' : PWriter, (w'.append [("a", 1)]).1 = .ok () ↔ w'.current ≠ none) ∧
    (∀ w' : PWriter, w'.close.current = none) :=
  closed_writer_raises PWriter.init [("a", 1)] rfl

end Avrokit
